import Mathlib

set_option maxHeartbeats 1000000

namespace TaxiSpec

/-! # Shallow embedding of the taxi-trip cleaning pipeline

Each definition below embeds one function of the repository; the doc comment
names the source location.  Machine floats are modelled as rationals (only
order comparisons and field arithmetic on them occur in the embedded code),
pandas NaN cells as `Option`/dedicated constructors, and numpy int64 cells as
unbounded `Int` (the ids and the constant offset used by the code are far
below the int64 overflow bound, and no claim concerns wrap-around). -/

/-! ## TripDeduplicator — `handle_duplicates` (src/part1/data_cleaning.py) -/

/-- A TRIP_ID cell: an int64 as read from the CSV, or a Python string as
produced by the f-string rewrite inside `handle_duplicates`. -/
inductive TId where
  | num (n : Int)
  | str (s : String)
  deriving DecidableEq

/-- One dataframe row as seen by `handle_duplicates`: `idx` is the index label
(the `RangeIndex` produced by `read_csv`, preserved by filtering and by
`drop_duplicates`), `trip_id` the TRIP_ID cell, `rest` the remaining
non-POLYLINE columns (CALL_TYPE, TAXI_ID, TIMESTAMP, ... collectively), and
`poly` the POLYLINE payload. -/
structure Row where
  idx : Int
  trip_id : TId
  rest : List Int
  poly : List Int
  deriving DecidableEq

/-- The duplicate key of `df.drop_duplicates(subset=columns_to_check)`:
every column except POLYLINE. -/
def rowKey (r : Row) : TId × List Int := (r.trip_id, r.rest)

/-- The pass `drop_duplicates(..., keep="first")`: keep the first row of each key. -/
def dedupBy : List (TId × List Int) → List Row → List Row
  | _, [] => []
  | seen, r :: rs =>
    if rowKey r ∈ seen then dedupBy seen rs
    else r :: dedupBy (rowKey r :: seen) rs

/-- The call `df.drop_duplicates` on every column but POLYLINE, keeping firsts. -/
def drop_duplicates (rows : List Row) : List Row := dedupBy [] rows

/-- Size of the TRIP_ID group `t`: one entry of `df.groupby("TRIP_ID").size()`. -/
def groupSize (rows : List Row) (t : TId) : Nat :=
  (rows.filter fun r => r.trip_id == t).length

/-- The value that `df["TRIP_ID_count"] = df.groupby("TRIP_ID").size()` stores
into row `r`.  The right-hand series is indexed by the TRIP_ID values
themselves, so pandas aligns it against the dataframe's index labels: row `r`
receives the size of the group whose key equals the label `r.idx` when such a
group exists, and NaN (`none`) otherwise.  An integer label never equals a
string group key. -/
def countForRow (rows : List Row) (r : Row) : Option Nat :=
  if groupSize rows (TId.num r.idx) = 0 then none
  else some (groupSize rows (TId.num r.idx))

/-- The index `duplicate_trip_ids = df[df["TRIP_ID_count"] > 1].index`
(in pandas `NaN > 1` is false). -/
def duplicateTripIds (rows : List Row) : List Int :=
  (rows.filter fun r =>
    match countForRow rows r with
    | some c => decide (1 < c)
    | none => false).map Row.idx

/-- Element-wise `df["TRIP_ID"] == trip_id` where `trip_id` is an index label
(a Python int): an int cell compares by value, a string cell is never equal. -/
def eqLabel (t : Int) : TId → Bool
  | .num n => n == t
  | .str _ => false

/-- The constant offset `10000000000000` added by the rewrite. -/
def OFFSET : Int := 10000000000000

/-- The value `f"{row['TRIP_ID'] + 10000000000000}"` stored back into the cell: the
decimal rendering of the shifted id, as a Python string. -/
def newId (n : Int) : TId := TId.str (toString (n + OFFSET))

/-- The assignment `df.loc[index, "TRIP_ID"] = v`: label-based, writing every
row carrying that index label. -/
def setTripId (i : Int) (v : TId) (rows : List Row) : List Row :=
  rows.map fun r => if r.idx = i then { r with trip_id := v } else r

/-- One iteration of the reconciliation loop for the label `t`:
`duplicate_rows = df[df["TRIP_ID"] == trip_id]` is snapshotted, the first
snapshot row (`i == 0`) is skipped, and every later one is rewritten.  Each
snapshot row's TRIP_ID equals `t` (that is what the mask selected), so the
value `f"{row['TRIP_ID'] + 10000000000000}"` is `newId t` for every one. -/
def processLabel (t : Int) (rows : List Row) : List Row :=
  match rows.filter fun r => eqLabel t r.trip_id with
  | [] => rows
  | _ :: dups => dups.foldl (fun acc r => setTripId r.idx (newId t) acc) rows

/-- The `for trip_id in duplicate_trip_ids:` loop. -/
def reassignLoop (labels : List Int) (rows : List Row) : List Row :=
  labels.foldl (fun acc t => processLabel t acc) rows

/-- The function `handle_duplicates` (src/part1/data_cleaning.py, lines 13-38):
exact-duplicate removal on all columns but POLYLINE, then the
identity-collision loop driven by the index labels that the misaligned
TRIP_ID_count column marks.  The helper column is added and dropped again and
therefore does not appear here. -/
def handle_duplicates (rows : List Row) : List Row :=
  let d := drop_duplicates rows
  reassignLoop (duplicateTripIds d) d

/-- Characterisation used by the proofs below (not part of the embedding):
what the reconciliation loop does to one row of the deduplicated batch `d`
when driven by the label list `L`.  A row holding an integer id `n` is
rewritten to `newId n` exactly when `n` occurs in `L` and the row is not the
first holder of `n` in `d`; every other row is untouched. -/
def holdsLabel (t : Int) (r : Row) : Bool := eqLabel t r.trip_id

/-- First row of `d` whose TRIP_ID equals the integer `t`, if any. -/
def firstHolder (d : List Row) (t : Int) : Option Row := d.find? (holdsLabel t)

/-- See `holdsLabel`: the per-row effect of the whole reconciliation loop. -/
def rewritten (d : List Row) (L : List Int) (r : Row) : Row :=
  match r.trip_id with
  | .num n =>
    if n ∈ L ∧ firstHolder d n ≠ some r then { r with trip_id := newId n } else r
  | .str _ => r

/-! ## Decimal rendering

`Nat.repr` is defined through the fuelled `Nat.toDigitsCore`; `natChars` is a
fuel-free restatement used to prove that the rendering is injective (the fact
the dedup code relies on when it derives fresh string ids from integer ids). -/

/-- The digits of `n` in base 10, most significant first. -/
def natChars (n : Nat) : List Char :=
  if _ : n < 10 then [Nat.digitChar n]
  else natChars (n / 10) ++ [Nat.digitChar (n % 10)]
termination_by n
decreasing_by exact Nat.div_lt_self (by omega) (by omega)

/-- Inverse of `Nat.digitChar` on decimal digits. -/
def charDigit (c : Char) : Nat :=
  if c = '1' then 1 else if c = '2' then 2 else if c = '3' then 3 else
  if c = '4' then 4 else if c = '5' then 5 else if c = '6' then 6 else
  if c = '7' then 7 else if c = '8' then 8 else if c = '9' then 9 else 0

/-- Decimal value of a digit string, most significant first. -/
def charsVal (l : List Char) : Nat := l.foldl (fun a c => 10 * a + charDigit c) 0

/-! ## PolylineValidator — `validate_single_polyline`
(src/part1/eda/verify_polyline_bounds.py, lines 108-183)

The function classifies the raw POLYLINE cell through these stations, each of
which the input model below represents:
1. `pd.isna(polyline_str) or polyline_str == "[]"` → `empty`;
2. `json.loads` — raises for non-JSON text (→ the `except` clause, `malformed`);
3. `if not polyline` — a falsy parse (empty list, 0, empty string, ...) → `empty`;
4. `np.array(polyline, dtype=float)` — raises for ragged lists, non-numeric
   entries, dicts (→ `malformed`); otherwise yields an array of some shape;
5. `point_count = coords.shape[0]` — raises on a 0-dimensional array (a JSON
   scalar) (→ `malformed`);
6. the two count checks against min/max;
7. `coords[:, 0]` / `coords[:, 1]` — raise when the array is 1-dimensional
   (a flat numeric list) or has fewer than two columns (→ `malformed`,
   only after the count checks);
8. the vectorised bounds test over the column-0 and column-1 values; for an
   array of dimension three or more these are whole slabs, every scalar of
   which is tested.

The input model distinguishes exactly these outcomes.  A successfully
converted array of dimension ≥ 2 and shape `(n, k, ...)` is `arr2 k rows`
(dimension exactly 2, each row a length-`k` vector of scalars) or
`arrHi k rows` (dimension ≥ 3, each row a length-`k` vector of slabs, a slab
being its list of scalars; only slabs 0 and 1 are ever read, so shape beyond
axis 1 is not tracked).  The length-`k` constraint is part of the row type,
so only rectangular values — the ones numpy can produce — are expressible.
Float NaN entries (e.g. from JSON `null` inside a list) compare false in
every bounds test, exactly like a coordinate outside the box, so they are
represented by out-of-box rationals.  The global `PORTO_BOUNDS` box is a
parameter here, as the claims quantify over the bounding-box
configuration. -/

/-- A rectangular row: a list of fixed width `k`. -/
abbrev NVec (α : Type) (k : Nat) := { l : List α // l.length = k }

/-- The raw POLYLINE cell, by conversion outcome (see the section comment). -/
inductive PolyInput where
  | nan
  | unparsable
  | falsy
  | badArray
  | scalarArr
  | arr1 (n : Nat)
  | arr2 (k : Nat) (rows : List (NVec ℚ k))
  | arrHi (k : Nat) (rows : List (NVec (List ℚ) k))

/-- The geographic bound produced by `calculate_bounding_box_coord`. -/
structure BBox where
  min_lon : ℚ
  max_lon : ℚ
  min_lat : ℚ
  max_lat : ℚ
  deriving DecidableEq

/-- The containment test
`(lons >= min_lon) & (lons <= max_lon) & (lats >= min_lat) & (lats <= max_lat)`
for one row of a 2-dimensional array: entry 0 is the longitude, entry 1 the
latitude, any further columns are never read by the source.  This is only
evaluated under the guard `2 ≤ k`, where entries 0 and 1 exist, so the
`getD` defaults are never used. -/
def rowInBounds (b : BBox) (row : List ℚ) : Bool :=
  decide (b.min_lon ≤ row.getD 0 0) && decide (row.getD 0 0 ≤ b.max_lon) &&
  decide (b.min_lat ≤ row.getD 1 0) && decide (row.getD 1 0 ≤ b.max_lat)

/-- The same test for one row of an array of dimension ≥ 3: `coords[:, 0]`
and `coords[:, 1]` are slabs, and `in_bounds.all()` demands every scalar of
slab 0 within the longitude range and every scalar of slab 1 within the
latitude range.  Only evaluated under `2 ≤ k`. -/
def slabInBounds (b : BBox) (row : List (List ℚ)) : Bool :=
  (row.getD 0 []).all
    (fun v => decide (b.min_lon ≤ v) && decide (v ≤ b.max_lon)) &&
  (row.getD 1 []).all
    (fun v => decide (b.min_lat ≤ v) && decide (v ≤ b.max_lat))

inductive Reason where
  | valid
  | empty
  | malformed
  | too_short
  | too_long
  | out_of_bounds
  deriving DecidableEq

/-- The dictionary `{'valid': ..., 'reason': ..., 'point_count': ...}`. -/
structure VResult where
  valid : Bool
  reason : Reason
  point_count : Option Nat
  deriving DecidableEq

/-- The function `validate_single_polyline(polyline_str, min_polyline_points,
max_polyline_points)`, branch for branch; every raise lands in the
`except Exception` clause, which answers `malformed` with no point count. -/
def validate_single_polyline (bounds : BBox) (pstr : PolyInput)
    (minp maxp : Nat) : VResult :=
  match pstr with
  | .nan => ⟨false, .empty, some 0⟩
  | .falsy => ⟨false, .empty, some 0⟩
  | .unparsable => ⟨false, .malformed, none⟩
  | .badArray => ⟨false, .malformed, none⟩
  | .scalarArr => ⟨false, .malformed, none⟩
  | .arr1 n =>
    if n < minp then ⟨false, .too_short, some n⟩
    else if maxp < n then ⟨false, .too_long, some n⟩
    else ⟨false, .malformed, none⟩
  | .arr2 k rows =>
    if rows.length < minp then ⟨false, .too_short, some rows.length⟩
    else if maxp < rows.length then ⟨false, .too_long, some rows.length⟩
    else if k < 2 then ⟨false, .malformed, none⟩
    else if rows.all (fun row => rowInBounds bounds row.val) then
      ⟨true, .valid, some rows.length⟩
    else ⟨false, .out_of_bounds, some rows.length⟩
  | .arrHi k rows =>
    if rows.length < minp then ⟨false, .too_short, some rows.length⟩
    else if maxp < rows.length then ⟨false, .too_long, some rows.length⟩
    else if k < 2 then ⟨false, .malformed, none⟩
    else if rows.all (fun row => slabInBounds bounds row.val) then
      ⟨true, .valid, some rows.length⟩
    else ⟨false, .out_of_bounds, some rows.length⟩

/-- Claim side: the first-axis length of the converted array
(`coords.shape[0]`), when one exists. -/
def arrCount : PolyInput → Option Nat
  | .arr1 n => some n
  | .arr2 _ rows => some rows.length
  | .arrHi _ rows => some rows.length
  | _ => none

/-- Claim side: the converted array has at least two columns, so the column
extractions `coords[:, 0]` and `coords[:, 1]` succeed. -/
def hasTwoCols : PolyInput → Bool
  | .arr2 k _ => decide (2 ≤ k)
  | .arrHi k _ => decide (2 ≤ k)
  | _ => false

/-- Claim side: every column-0 and column-1 value lies within the box. -/
def colsInBounds (b : BBox) : PolyInput → Bool
  | .arr2 _ rows => rows.all (fun row => rowInBounds b row.val)
  | .arrHi _ rows => rows.all (fun row => slabInBounds b row.val)
  | _ => false

/-- Amended rule 1: null/absent input or a falsy parse — always `empty`. -/
def isNullOrEmpty : PolyInput → Bool
  | .nan => true
  | .falsy => true
  | _ => false

/-- Amended rule 2: failures detected before any count exists — `json.loads`
raising, `np.array` raising, or a 0-dimensional array. -/
def earlyMalformed : PolyInput → Bool
  | .unparsable => true
  | .badArray => true
  | .scalarArr => true
  | _ => false

/-- Amended rule 5: structural failures detected only at column extraction,
after the count checks — a 1-dimensional array or fewer than two columns. -/
def lateMalformed : PolyInput → Bool
  | .arr1 _ => true
  | .arr2 k _ => decide (k < 2)
  | .arrHi k _ => decide (k < 2)
  | _ => false

/-- Reference definition for the corrected claim: the ordered rule list the
code actually implements — empty, early malformed, too_short, too_long, late
malformed, out_of_bounds, valid, first match wins.  Unlike the spec's §4.2
list, malformedness detected at column extraction ranks below the count
checks.  (The order between rules 1 and 2 is unobservable: their conditions
are disjoint.) -/
def specReasonAmended (bounds : BBox) (minp maxp : Nat) (pstr : PolyInput) :
    Reason :=
  if isNullOrEmpty pstr then .empty
  else if earlyMalformed pstr then .malformed
  else if (arrCount pstr).getD 0 < minp then .too_short
  else if maxp < (arrCount pstr).getD 0 then .too_long
  else if lateMalformed pstr then .malformed
  else if colsInBounds bounds pstr then .valid
  else .out_of_bounds

/-! ## BoundingBoxCalculator — `calculate_bounding_box_coord`
(src/part1/eda/verify_polyline_bounds.py, lines 61-99)

The source reads the module-level center `(lat, lon) = (41.14961, -8.61099)`
and computes `math.cos(math.radians(lat))`; center and cosine value enter the
embedding as parameters (`cosLat` stands for the library call's value, which
for the Porto latitude is about 0.7531, in particular positive). -/

/-- The module-level center constants. -/
def portoLat : ℚ := 41.14961

def portoLon : ℚ := -8.61099

/-- The constant `lat_distance_const = 111.32` (km per degree of latitude). -/
def lat_distance_const : ℚ := 111.32

/-- The function `calculate_bounding_box_coord(radius)` with the module globals `lon`,
`lat` and the value `cosLat` of `math.cos(math.radians(lat))` made explicit.
There is no radius validation in the source: the formula is applied to any
radius. -/
def calculate_bounding_box_coord (lon lat cosLat radius : ℚ) : BBox :=
  let lat_range := radius / lat_distance_const
  let lon_range := radius / (lat_distance_const * cosLat)
  { min_lon := lon - lon_range
    max_lon := lon + lon_range
    min_lat := lat - lat_range
    max_lat := lat + lat_range }

/-! ## LabelIntervalAssigner — `apply_labels`
(src/part1/eda/path_vizualization/visualize_paths.py, lines 92-115)

Label ids are the integers of `mode_ids` (`unknown` is 0).  The parallel
`label_name` string column repeats the same assignment and is not modelled
separately. -/

/-- One row of the labels dataframe: a closed time interval and a mode id. -/
structure LabelRow where
  start_time : Int
  end_time : Int
  label : Nat
  deriving DecidableEq

/-- One GPS sample with its (current) label column. -/
structure LPoint where
  time : Int
  label : Nat
  deriving DecidableEq

/-- One pass of the interval loop:
`mask = (points['time'] >= start) & (points['time'] <= end)`;
`points.loc[mask, 'label'] = label`. -/
def applyOneLabel (iv : LabelRow) (pts : List LPoint) : List LPoint :=
  pts.map fun p =>
    if iv.start_time ≤ p.time ∧ p.time ≤ iv.end_time then ⟨p.time, iv.label⟩
    else p

/-- The function `apply_labels(points, labels)`: `none` models `labels is None` (missing
labels file); all labels start as 0 (`unknown`) and each interval row then
overwrites its matching samples, in the rows' original order. -/
def apply_labels (labels : Option (List LabelRow)) (pts : List LPoint) :
    List LPoint :=
  match labels with
  | none => pts.map fun p => ⟨p.time, 0⟩
  | some l =>
    if l.isEmpty then pts.map fun p => ⟨p.time, 0⟩
    else l.foldl (fun acc iv => applyOneLabel iv acc) (pts.map fun p => ⟨p.time, 0⟩)

/-- Reference definition following the spec's words (§4.4): the mode of the
last interval, in original input order, that inclusively contains `t`;
0 (`unknown`) when none does.  Compared against `apply_labels` below. -/
def lastMatchLabel (l : List LabelRow) (t : Int) : Nat :=
  match (l.filter fun iv =>
      decide (iv.start_time ≤ t) && decide (t ≤ iv.end_time)).getLast? with
  | some iv => iv.label
  | none => 0

/-! ## TrajectoryAssembler — `create_trajectory_files` and `read_taxi`
(src/part1/eda/path_vizualization/csv_to_plt_format.py, lines 66-77, and
src/part1/eda/path_vizualization/visualize_paths.py, lines 140-143)

`create_trajectory_files` writes, for each trip, one sample per polyline
point with time `timestamp + i * 15`; `read_taxi` concatenates the per-trip
files of one taxi and runs `df.sort_values('time')`.  pandas' `sort_values`
defaults to `kind='quicksort'` (numpy introsort), which only promises a
correct sort — not a stable one — so the sort enters the embedding as a
parameter constrained by `SortSpec`. -/

/-- One trip of a taxi: start timestamp (epoch seconds) and polyline. -/
structure Trip where
  start : Int
  polyline : List (ℚ × ℚ)
  deriving DecidableEq

/-- One timestamped GPS sample of a trajectory file. -/
structure TSample where
  time : Int
  lon : ℚ
  lat : ℚ
  deriving DecidableEq

/-- The `for i, (lon, lat) in enumerate(polyline):` loop writing
`point_time = datetime.fromtimestamp(current_timestamp + i * 15)`
(`current_timestamp` is the trip's start and is never advanced). -/
def samplesFrom (start : Int) : Nat → List (ℚ × ℚ) → List TSample
  | _, [] => []
  | i, p :: ps => ⟨start + 15 * (i : Int), p.1, p.2⟩ :: samplesFrom start (i + 1) ps

/-- All samples of one trip, in file order. -/
def tripSamples (t : Trip) : List TSample := samplesFrom t.start 0 t.polyline

/-- The concatenation `pd.concat(valid_dfs, ignore_index=True)`: the per-trip sample lists of
one taxi, concatenated in input order (a trip with an empty polyline is
skipped by the writer and contributes nothing). -/
def concatTrips (trips : List Trip) : List TSample :=
  (trips.map tripSamples).flatten

/-- The key order of `sort_values('time')`: compare timestamps. -/
def sampleLE (a b : TSample) : Prop := a.time ≤ b.time

instance : DecidableRel sampleLE := fun a b => inferInstanceAs (Decidable (a.time ≤ b.time))

instance : IsTotal TSample sampleLE := ⟨fun a b => Int.le_total a.time b.time⟩

instance : IsTrans TSample sampleLE := ⟨fun _ _ _ h h' => le_trans h h'⟩

/-- What pandas documents for `sort_values('time')` with the default
`kind='quicksort'`: the output is a permutation of the input, sorted by the
key — and nothing more (no stability guarantee). -/
def SortSpec (f : List TSample → List TSample) : Prop :=
  ∀ l, List.Perm (f l) l ∧ (f l).Sorted sampleLE

/-- The function `read_taxi` for one taxi, with the library sort as a parameter. -/
def read_taxi (sortf : List TSample → List TSample) (trips : List Trip) :
    List TSample :=
  sortf (concatTrips trips)

/-- The stable timestamp sort the spec asserts (ties broken by original
order): insertion sort by the key is stable. -/
def stableSortTime (l : List TSample) : List TSample := l.insertionSort sampleLE

/-- A correct but unstable admissible model of numpy's quicksort: sorting the
reversed input with a stable sort reverses the relative order of equal keys. -/
def badSort (l : List TSample) : List TSample := l.reverse.insertionSort sampleLE

/-! ## Concrete inputs used by counterexamples and witnesses -/

/-- Two records identical except for the payload, sharing trip id 100, with the
index labels a CSV read produces: the §8 end-to-end scenario of the spec. -/
def W1 : List Row :=
  [⟨0, .num 100, [1], [1]⟩, ⟨1, .num 100, [2], [2]⟩]

/-- Three records sharing trip id 5; the index label 5 makes the misaligned
count column mark the group, so the rewrite loop actually runs. -/
def W6 : List Row :=
  [⟨5, .num 5, [1], []⟩, ⟨6, .num 5, [2], []⟩, ⟨7, .num 5, [3], []⟩]

/-- Like `W6` but with a pre-existing string id equal to the id the rewrite
will fabricate for trip id 5. -/
def W5 : List Row :=
  [⟨5, .num 5, [1], []⟩, ⟨6, .num 5, [2], []⟩, ⟨7, .str "10000000000005", [2], []⟩]

/-- A small concrete bounding box. -/
def bbox0 : BBox := ⟨-9, -8, 40, 42⟩

/-- Two one-point trips with the same start timestamp: a timestamp tie across
trips. -/
def trips0 : List Trip := [⟨0, [(1, 1)]⟩, ⟨0, [(2, 2)]⟩]


/-! ## Lemmas: decimal rendering is injective -/

/-- On decimal digits, `charDigit` inverts `Nat.digitChar`. -/
theorem charDigit_digitChar (d : Nat) (h : d < 10) :
    charDigit (Nat.digitChar d) = d := by
  interval_cases d <;> decide

/-- Decimal digit characters are never the minus sign. -/
theorem digitChar_ne_dash (d : Nat) (h : d < 10) : Nat.digitChar d ≠ '-' := by
  interval_cases d <;> decide

/-- Evaluating the digit string of `n` gives back `n`. -/
theorem charsVal_natChars (n : Nat) : charsVal (natChars n) = n := by
  induction n using Nat.strong_induction_on with
  | _ n ih =>
    rw [natChars]
    by_cases h : n < 10
    · rw [dif_pos h]
      simp [charsVal, charDigit_digitChar n h]
    · rw [dif_neg h]
      have hd : n / 10 < n := Nat.div_lt_self (by omega) (by omega)
      have := ih (n / 10) hd
      rw [charsVal, List.foldl_append]
      have hmod : n % 10 < 10 := Nat.mod_lt _ (by omega)
      simp only [List.foldl_cons, List.foldl_nil]
      rw [show (natChars (n / 10)).foldl (fun a c => 10 * a + charDigit c) 0
            = charsVal (natChars (n / 10)) from rfl, this,
        charDigit_digitChar _ hmod]
      omega

/-- Digit strings determine the number. -/
theorem natChars_injective {m n : Nat} (h : natChars m = natChars n) : m = n := by
  have hm := charsVal_natChars m
  rw [h, charsVal_natChars] at hm
  omega

/-- A digit string starts with a digit character. -/
theorem natChars_head (n : Nat) :
    ∃ d rest, d < 10 ∧ natChars n = Nat.digitChar d :: rest := by
  induction n using Nat.strong_induction_on with
  | _ n ih =>
    rw [natChars]
    by_cases h : n < 10
    · exact ⟨n, [], h, by rw [dif_pos h]⟩
    · obtain ⟨d, rest, hd, hrest⟩ := ih (n / 10) (Nat.div_lt_self (by omega) (by omega))
      exact ⟨d, rest ++ [Nat.digitChar (n % 10)], hd, by rw [dif_neg h, hrest]; rfl⟩

/-- The fuelled core agrees with `natChars` when the fuel suffices. -/
theorem toDigitsCore_eq (fuel n : Nat) (ds : List Char) (h : n < fuel) :
    Nat.toDigitsCore 10 fuel n ds = natChars n ++ ds := by
  induction fuel generalizing n ds with
  | zero => omega
  | succ fuel ih =>
    rw [Nat.toDigitsCore]
    by_cases h10 : n / 10 = 0
    · have hn : n < 10 := by omega
      rw [if_pos h10, natChars, dif_pos hn, Nat.mod_eq_of_lt hn]
      rfl
    · have hn : ¬ n < 10 := by
        intro hc
        exact h10 (Nat.div_eq_of_lt hc)
      have hlt : n / 10 < fuel := by
        have := Nat.div_lt_self (show 0 < n by omega) (show 1 < 10 by omega)
        omega
      rw [if_neg h10, ih (n / 10) _ hlt]
      conv_rhs => rw [natChars]
      rw [dif_neg hn]
      simp

/-- The standard rendering of a natural is its digit string. -/
theorem natRepr_eq (n : Nat) : Nat.repr n = String.mk (natChars n) := by
  rw [Nat.repr, Nat.toDigits, toDigitsCore_eq (n + 1) n [] (Nat.lt_succ_self n)]
  simp [List.asString]

/-- Decimal rendering of naturals is injective. -/
theorem natRepr_injective {m n : Nat} (h : Nat.repr m = Nat.repr n) : m = n := by
  rw [natRepr_eq, natRepr_eq] at h
  exact natChars_injective (congrArg String.data h)

/-- A rendered natural never starts with a minus sign. -/
theorem natRepr_head_ne_dash (n : Nat) :
    ∃ c rest, (Nat.repr n).data = c :: rest ∧ c ≠ '-' := by
  obtain ⟨d, rest, hd, hrest⟩ := natChars_head n
  refine ⟨Nat.digitChar d, rest, ?_, digitChar_ne_dash d hd⟩
  rw [natRepr_eq, hrest]

/-- Decimal rendering of integers is injective — the fact the dedup rewrite
relies on when it derives fresh string ids from distinct integer ids. -/
theorem int_toString_injective {a b : Int} (h : toString a = toString b) : a = b := by
  cases a with
  | ofNat m =>
    cases b with
    | ofNat k =>
      have hmk : Nat.repr m = Nat.repr k := h
      rw [natRepr_injective hmk]
    | negSucc k =>
      have hh : Nat.repr m = "-" ++ Nat.repr (k + 1) := h
      obtain ⟨c, rest, hc, hcne⟩ := natRepr_head_ne_dash m
      have hdata := congrArg String.data hh
      rw [hc] at hdata
      have hcons : c :: rest = '-' :: (Nat.repr (k + 1)).data := by
        simpa [String.data_append] using hdata
      exact absurd (List.head_eq_of_cons_eq hcons) hcne
  | negSucc m =>
    cases b with
    | ofNat k =>
      have hh : ("-" ++ Nat.repr (m + 1) : String) = Nat.repr k := h
      obtain ⟨c, rest, hc, hcne⟩ := natRepr_head_ne_dash k
      have hdata := congrArg String.data hh
      rw [hc] at hdata
      have hcons : '-' :: (Nat.repr (m + 1)).data = c :: rest := by
        simpa [String.data_append] using hdata
      exact absurd (List.head_eq_of_cons_eq hcons).symm hcne
    | negSucc k =>
      have hh : ("-" ++ Nat.repr (m + 1) : String) = "-" ++ Nat.repr (k + 1) := h
      have h2 : (Nat.repr (m + 1)).data = (Nat.repr (k + 1)).data := by
        simpa [String.data_append] using congrArg String.data hh
      have h3 : m + 1 = k + 1 := natRepr_injective (String.ext h2)
      have h4 : m = k := by omega
      rw [h4]

/-- Fresh string ids derived from distinct integer ids are distinct. -/
theorem newId_injective {a b : Int} (h : newId a = newId b) : a = b := by
  have h1 : toString (a + OFFSET) = toString (b + OFFSET) := by
    simpa [newId] using h
  have := int_toString_injective h1
  omega

/-- A fabricated string id never equals an integer id. -/
theorem newId_ne_num (a n : Int) : newId a ≠ TId.num n := by
  simp [newId]

/-! ## Lemmas: exact-duplicate removal -/

/-- Dropping duplicates yields a sublist. -/
theorem dedupBy_sublist : ∀ (seen : List (TId × List Int)) (rows : List Row),
    List.Sublist (dedupBy seen rows) rows := by
  intro seen rows
  induction rows generalizing seen with
  | nil => simp [dedupBy]
  | cons r rs ih =>
    rw [dedupBy]
    by_cases h : rowKey r ∈ seen
    · rw [if_pos h]
      exact (ih seen).cons r
    · rw [if_neg h]
      exact (ih _).cons₂ r

/-- After dropping duplicates the keys are pairwise distinct and avoid the
accumulator. -/
theorem dedupBy_keys (seen : List (TId × List Int)) (rows : List Row) :
    ((dedupBy seen rows).map rowKey).Nodup ∧
    ∀ k ∈ (dedupBy seen rows).map rowKey, k ∉ seen := by
  induction rows generalizing seen with
  | nil => simp [dedupBy]
  | cons r rs ih =>
    rw [dedupBy]
    by_cases h : rowKey r ∈ seen
    · rw [if_pos h]
      exact ih seen
    · rw [if_neg h]
      obtain ⟨hnd, hns⟩ := ih (rowKey r :: seen)
      refine ⟨?_, ?_⟩
      · simp only [List.map_cons, List.nodup_cons]
        exact ⟨fun hc => (hns _ hc) (List.mem_cons_self _ _), hnd⟩
      · intro k hk
        simp only [List.map_cons, List.mem_cons] at hk
        rcases hk with rfl | hk
        · exact h
        · exact fun hc => (hns _ hk) (List.mem_cons_of_mem _ hc)

/-- Dropping duplicates from a list with distinct keys changes nothing. -/
theorem dedupBy_eq_self : ∀ (seen : List (TId × List Int)) (l : List Row),
    (l.map rowKey).Nodup → (∀ k ∈ l.map rowKey, k ∉ seen) → dedupBy seen l = l := by
  intro seen l
  induction l generalizing seen with
  | nil => intro _ _; rfl
  | cons r rs ih =>
    intro hnd hns
    rw [dedupBy, if_neg (hns (rowKey r) (by simp))]
    congr 1
    apply ih
    · exact (List.nodup_cons.mp hnd).2
    · intro k hk
      simp only [List.mem_cons, not_or]
      constructor
      · intro hc
        subst hc
        exact (List.nodup_cons.mp hnd).1 hk
      · exact hns k (List.mem_cons_of_mem _ hk)

/-! ## Lemmas: searching and filtering by position -/

/-- Finding is taking the head of the filtered list. -/
theorem find?_eq_head?_filter (p : Row → Bool) : ∀ (l : List Row),
    l.find? p = (l.filter p).head? := by
  intro l
  induction l with
  | nil => rfl
  | cons a l ih =>
    by_cases h : p a
    · simp [List.find?_cons_of_pos _ h, List.filter_cons_of_pos h]
    · simp only [List.find?_cons_of_neg _ h, List.filter_cons_of_neg h]
      exact ih

/-- A position whose earlier positions all fail the predicate is the one
`find?` returns. -/
theorem find?_eq_get_first (p : Row → Bool) (l : List Row) (i : Nat)
    (hi : i < l.length) (hp : p (l.get ⟨i, hi⟩) = true)
    (hfst : ∀ j (hj : j < i), p (l.get ⟨j, lt_trans hj hi⟩) = false) :
    l.find? p = some (l.get ⟨i, hi⟩) := by
  induction l generalizing i with
  | nil => simp at hi
  | cons a l ih =>
    cases i with
    | zero => exact List.find?_cons_of_pos _ hp
    | succ i =>
      have h0 : p a = false := hfst 0 (Nat.succ_pos i)
      rw [List.find?_cons_of_neg _ (by simp [h0])]
      exact ih i (by simpa using hi) hp
        (fun j hj => hfst (j + 1) (by omega))

/-- A filtered list of length at least two has two matching positions. -/
theorem filter_two_positions (p : Row → Bool) : ∀ (l : List Row),
    2 ≤ (l.filter p).length →
    ∃ (i j : Nat) (hi : i < l.length) (hj : j < l.length), i < j ∧
      p (l.get ⟨i, hi⟩) = true ∧ p (l.get ⟨j, hj⟩) = true := by
  intro l
  induction l with
  | nil => simp
  | cons a l ih =>
    intro h2
    by_cases hpa : p a
    · rw [List.filter_cons_of_pos hpa] at h2
      have h1 : 1 ≤ (l.filter p).length := by
        simp only [List.length_cons] at h2
        omega
      have h0 : 0 < (l.filter p).length := by omega
      obtain ⟨x, hx⟩ := List.exists_mem_of_length_pos h0
      have hx' : x ∈ l ∧ p x := by
        constructor
        · exact List.mem_of_mem_filter hx
        · exact List.of_mem_filter hx
      obtain ⟨k, hkx⟩ := List.mem_iff_get.mp hx'.1
      have hjlt : (k : Nat) + 1 < (a :: l).length := by
        simp only [List.length_cons]
        omega
      refine ⟨0, (k : Nat) + 1, by simp, hjlt, by omega, by simpa using hpa, ?_⟩
      have hget : (a :: l).get ⟨(k : Nat) + 1, hjlt⟩ = l.get k := rfl
      rw [hget, hkx]
      exact hx'.2
    · rw [List.filter_cons_of_neg hpa] at h2
      obtain ⟨i, j, hi, hj, hij, hpi, hpj⟩ := ih h2
      exact ⟨i + 1, j + 1, by simpa using Nat.succ_lt_succ hi,
        by simpa using Nat.succ_lt_succ hj, by omega, hpi, hpj⟩

/-- Two distinct matching positions force the filtered list to have length at
least two. -/
theorem two_le_filter_length (p : Row → Bool) : ∀ (l : List Row) (i j : Nat)
    (hi : i < l.length) (hj : j < l.length), i < j →
    p (l.get ⟨i, hi⟩) = true → p (l.get ⟨j, hj⟩) = true →
    2 ≤ (l.filter p).length := by
  intro l
  induction l with
  | nil => intro i j hi; simp at hi
  | cons a l ih =>
    intro i j hi hj hij hpi hpj
    cases i with
    | zero =>
      have hpa : p a = true := hpi
      rw [List.filter_cons_of_pos hpa]
      cases j with
      | zero => omega
      | succ j =>
        have hmem0 : l.get ⟨j, by simpa using hj⟩ ∈ l := List.get_mem l j _
        have hmem : l.get ⟨j, by simpa using hj⟩ ∈ l.filter p :=
          List.mem_filter.mpr ⟨hmem0, hpj⟩
        have hlen : 1 ≤ (l.filter p).length := List.length_pos.mpr (by
          intro hc
          rw [hc] at hmem
          simp at hmem)
        simp
        omega
    | succ i =>
      cases j with
      | zero => omega
      | succ j =>
        have hrec := ih i j (by simpa using hi) (by simpa using hj) (by omega) hpi hpj
        by_cases hpa : p a
        · rw [List.filter_cons_of_pos hpa]
          simp
          omega
        · rw [List.filter_cons_of_neg hpa]
          exact hrec

/-- Mapping a function that respects a predicate and fixes its satisfiers does
not change what `find?` returns. -/
theorem find?_map_invariant (g : Row → Row) (p : Row → Bool) :
    ∀ (l : List Row), (∀ x ∈ l, p (g x) = p x) → (∀ x ∈ l, p x = true → g x = x) →
    (l.map g).find? p = l.find? p := by
  intro l
  induction l with
  | nil => simp
  | cons a l ih =>
    intro h1 h2
    by_cases hpa : p a
    · have hga : p (g a) = true := by rw [h1 a (by simp)]; exact hpa
      rw [List.map_cons, List.find?_cons_of_pos _ hga, List.find?_cons_of_pos _ hpa,
        h2 a (by simp) hpa]
    · have hga : ¬ p (g a) = true := by rw [h1 a (by simp)]; simpa using hpa
      rw [List.map_cons, List.find?_cons_of_neg _ hga, List.find?_cons_of_neg _ hpa]
      exact ih (fun x hx => h1 x (by simp [hx])) (fun x hx => h2 x (by simp [hx]))

/-- If the found element is fixed by `g` and `g` creates no new satisfiers,
`find?` still returns it after mapping. -/
theorem find?_map_first (g : Row → Row) (p : Row → Bool) :
    ∀ (l : List Row) (a : Row), l.find? p = some a → g a = a →
    (∀ x ∈ l, p (g x) = true → p x = true ∧ g x = x) →
    (l.map g).find? p = some a := by
  intro l
  induction l with
  | nil => intro a h; simp at h
  | cons b l ih =>
    intro a hfind hga hx
    by_cases hpb : p b
    · rw [List.find?_cons_of_pos _ hpb] at hfind
      have hba : b = a := by simpa using hfind
      subst hba
      have hgb : p (g b) = true := by rw [hga]; exact hpb
      rw [List.map_cons, List.find?_cons_of_pos _ hgb, hga]
    · rw [List.find?_cons_of_neg _ hpb] at hfind
      have hgb : ¬ p (g b) = true := by
        intro hc
        exact hpb (hx b (by simp) hc).1
      rw [List.map_cons, List.find?_cons_of_neg _ hgb]
      exact ih a hfind hga (fun x hxl => hx x (by simp [hxl]))


/-! ## Lemmas: the reconciliation loop as a single map -/

/-- Holding a label means carrying that integer id. -/
theorem holdsLabel_iff (t : Int) (r : Row) :
    holdsLabel t r = true ↔ r.trip_id = TId.num t := by
  cases h : r.trip_id with
  | num n => simp [holdsLabel, eqLabel, h]
  | str s => simp [holdsLabel, eqLabel, h]

/-- Unfolding `rewritten` at an integer id. -/
theorem rewritten_eq_num (d : List Row) (L : List Int) {r : Row} {n : Int}
    (h : r.trip_id = TId.num n) :
    rewritten d L r =
      if n ∈ L ∧ firstHolder d n ≠ some r then { r with trip_id := newId n }
      else r := by
  simp only [rewritten, h]

/-- Unfolding `rewritten` at a string id: untouched. -/
theorem rewritten_eq_str (d : List Row) (L : List Int) {r : Row} {s : String}
    (h : r.trip_id = TId.str s) : rewritten d L r = r := by
  simp only [rewritten, h]

/-- Rewriting never changes the index label. -/
theorem rewritten_idx (d : List Row) (L : List Int) (r : Row) :
    (rewritten d L r).idx = r.idx := by
  rw [rewritten]
  cases r.trip_id with
  | num n =>
    by_cases h : n ∈ L ∧ firstHolder d n ≠ some r
    · simp [h]
    · simp [h]
  | str s => rfl

/-- Rewriting never changes the other columns. -/
theorem rewritten_rest (d : List Row) (L : List Int) (r : Row) :
    (rewritten d L r).rest = r.rest := by
  rw [rewritten]
  cases r.trip_id with
  | num n =>
    by_cases h : n ∈ L ∧ firstHolder d n ≠ some r
    · simp [h]
    · simp [h]
  | str s => rfl

/-- Rewriting never changes the polyline payload. -/
theorem rewritten_poly (d : List Row) (L : List Int) (r : Row) :
    (rewritten d L r).poly = r.poly := by
  rw [rewritten]
  cases r.trip_id with
  | num n =>
    by_cases h : n ∈ L ∧ firstHolder d n ≠ some r
    · simp [h]
    · simp [h]
  | str s => rfl

/-- A row comes out of the loop either untouched or with the shifted-and-
rendered string id, and in the latter case it was not the first holder. -/
theorem rewritten_cases (d : List Row) (L : List Int) (r : Row) :
    rewritten d L r = r ∨
    ∃ n, r.trip_id = TId.num n ∧
      rewritten d L r = { r with trip_id := newId n } ∧
      n ∈ L ∧ firstHolder d n ≠ some r := by
  rw [rewritten]
  cases h : r.trip_id with
  | num n =>
    by_cases hc : n ∈ L ∧ firstHolder d n ≠ some r
    · exact Or.inr ⟨n, rfl, by simp [hc], hc.1, hc.2⟩
    · simp [hc]
  | str s => simp

/-- Folding label-based assignments of one common value over a target list is
a single membership-tested map. -/
theorem foldl_setTripId (v : TId) : ∀ (ts : List Row) (rows : List Row),
    ts.foldl (fun acc r => setTripId r.idx v acc) rows
      = rows.map (fun x =>
          if x.idx ∈ ts.map Row.idx then { x with trip_id := v } else x) := by
  intro ts
  induction ts with
  | nil =>
    intro rows
    simp
  | cons t ts ih =>
    intro rows
    rw [List.foldl_cons, ih, setTripId, List.map_map]
    apply List.map_congr_left
    intro x _
    simp only [Function.comp, List.map_cons, List.mem_cons]
    by_cases h1 : x.idx = t.idx
    · by_cases h2 : x.idx ∈ ts.map Row.idx
      · simp [h1, h2]
      · simp [h1, h2]
    · by_cases h2 : x.idx ∈ ts.map Row.idx
      · simp [h1, h2]
      · simp [h1, h2]

/-- Distinct index labels identify rows. -/
theorem idx_inj (d : List Row) (hN : (d.map Row.idx).Nodup) :
    ∀ a ∈ d, ∀ b ∈ d, a.idx = b.idx → a = b :=
  fun _ ha _ hb h => List.inj_on_of_nodup_map hN ha hb h

/-- One loop iteration equals one simultaneous rewrite of the processed
label's group (the first holder is skipped). -/
theorem processLabel_eq (t : Int) (d : List Row) (hN : (d.map Row.idx).Nodup) :
    processLabel t d = d.map (rewritten d [t]) := by
  have hNd : d.Nodup := List.Nodup.of_map _ hN
  have hfilter_eq : (d.filter fun r => eqLabel t r.trip_id)
      = d.filter (holdsLabel t) := rfl
  cases hf : d.filter (holdsLabel t) with
  | nil =>
    have hpt : ∀ x ∈ d, rewritten d [t] x = x := by
      intro x hx
      cases hid : x.trip_id with
      | num n =>
        rw [rewritten_eq_num d [t] hid]
        by_cases hc : n ∈ [t] ∧ firstHolder d n ≠ some x
        · exfalso
          have hnt : n = t := by simpa using hc.1
          subst hnt
          have : x ∈ d.filter (holdsLabel n) :=
            List.mem_filter.mpr ⟨hx, (holdsLabel_iff n x).mpr hid⟩
          rw [hf] at this
          simp at this
        · rw [if_neg hc]
      | str s => exact rewritten_eq_str d [t] hid
    have hmap : d.map (rewritten d [t]) = d := by
      rw [List.map_congr_left hpt, List.map_id']
    rw [processLabel, hfilter_eq, hf]
    exact hmap.symm
  | cons hd tl =>
    rw [processLabel, hfilter_eq, hf]
    show tl.foldl (fun acc r => setTripId r.idx (newId t) acc) d
        = d.map (rewritten d [t])
    rw [foldl_setTripId]
    apply List.map_congr_left
    intro x hx
    have hfilterN : (d.filter (holdsLabel t)).Nodup := List.Nodup.filter _ hNd
    have hhd_first : firstHolder d t = some hd := by
      rw [firstHolder, find?_eq_head?_filter, hf]
      rfl
    have hmem_iff : x.idx ∈ tl.map Row.idx ↔
        (holdsLabel t x = true ∧ firstHolder d t ≠ some x) := by
      constructor
      · intro hmem
        obtain ⟨y, hy, hyx⟩ := List.mem_map.mp hmem
        have hytl : y ∈ d.filter (holdsLabel t) := by
          rw [hf]
          simp [hy]
        have hyd : y ∈ d := List.mem_of_mem_filter hytl
        have hxy : y = x := idx_inj d hN y hyd x hx hyx
        subst hxy
        refine ⟨List.of_mem_filter hytl, ?_⟩
        rw [hhd_first]
        intro hc
        have hhdy : y = hd := by
          have := Option.some.inj hc
          exact this.symm
        rw [hf] at hfilterN
        rcases List.nodup_cons.mp hfilterN with ⟨hnot, _⟩
        rw [← hhdy] at hnot
        exact hnot hy
      · rintro ⟨hhold, hne⟩
        have hxf : x ∈ d.filter (holdsLabel t) := List.mem_filter.mpr ⟨hx, hhold⟩
        rw [hf] at hxf
        rcases List.mem_cons.mp hxf with rfl | hxtl
        · exact absurd hhd_first hne
        · exact List.mem_map.mpr ⟨x, hxtl, rfl⟩
    cases hid : x.trip_id with
    | num n =>
      rw [rewritten_eq_num d [t] hid]
      by_cases hnt : n = t
      · subst hnt
        by_cases hfst : firstHolder d n = some x
        · have hno : ¬ x.idx ∈ tl.map Row.idx := by
            rw [hmem_iff]
            simp [hfst]
          rw [if_neg hno, if_neg (by simp [hfst])]
        · have hyes : x.idx ∈ tl.map Row.idx := by
            rw [hmem_iff]
            exact ⟨(holdsLabel_iff n x).mpr hid, hfst⟩
          rw [if_pos hyes, if_pos ⟨by simp, hfst⟩]
      · have hnh : ¬ holdsLabel t x = true := by
          rw [holdsLabel_iff, hid]
          intro hc
          exact hnt (by injection hc)
        have hno : ¬ x.idx ∈ tl.map Row.idx := by
          rw [hmem_iff]
          intro hc
          exact hnh hc.1
        rw [if_neg hno, if_neg (by
          intro hc
          exact hnt (by simpa using hc.1))]
    | str s =>
      rw [rewritten_eq_str d [t] hid]
      have hnh : ¬ holdsLabel t x = true := by
        rw [holdsLabel_iff, hid]
        simp
      have hno : ¬ x.idx ∈ tl.map Row.idx := by
        rw [hmem_iff]
        intro hc
        exact hnh hc.1
      rw [if_neg hno]

/-- Processing label `t` does not move the first holder of a different
label. -/
theorem firstHolder_map_ne (d : List Row) (t n : Int) (hnt : n ≠ t) :
    firstHolder (d.map (rewritten d [t])) n = firstHolder d n := by
  apply find?_map_invariant
  · intro x _
    cases hid : x.trip_id with
    | num m =>
      rw [rewritten_eq_num d [t] hid]
      by_cases hc : m ∈ [t] ∧ firstHolder d m ≠ some x
      · rw [if_pos hc]
        have hmt : m = t := by simpa using hc.1
        subst hmt
        have h1 : holdsLabel n { x with trip_id := newId m } = false := by
          simp [holdsLabel, eqLabel, newId]
        have h2 : holdsLabel n x = false := by
          simp only [holdsLabel, eqLabel, hid]
          simp
          omega
        rw [h1, h2]
      · rw [if_neg hc]
    | str s => rw [rewritten_eq_str d [t] hid]
  · intro x hx hpx
    have hid : x.trip_id = TId.num n := (holdsLabel_iff n x).mp hpx
    rw [rewritten_eq_num d [t] hid, if_neg]
    intro hc
    exact hnt (by simpa using hc.1)

/-- Processing label `t` keeps its own first holder in place. -/
theorem firstHolder_map_eq (d : List Row) (t : Int) (r : Row)
    (hfst : firstHolder d t = some r) :
    firstHolder (d.map (rewritten d [t])) t = some r := by
  have hid : r.trip_id = TId.num t := by
    have := List.find?_some hfst
    exact (holdsLabel_iff t r).mp this
  have hgr : rewritten d [t] r = r := by
    rw [rewritten_eq_num d [t] hid, if_neg]
    intro hc
    exact hc.2 hfst
  apply find?_map_first
  · exact hfst
  · exact hgr
  · intro x _ hpx
    cases hid2 : x.trip_id with
    | num m =>
      by_cases hc : m ∈ [t] ∧ firstHolder d m ≠ some x
      · exfalso
        rw [rewritten_eq_num d [t] hid2, if_pos hc] at hpx
        simp [holdsLabel, eqLabel, newId] at hpx
      · rw [rewritten_eq_num d [t] hid2, if_neg hc] at hpx
        exact ⟨hpx, by rw [rewritten_eq_num d [t] hid2, if_neg hc]⟩
    | str s =>
      rw [rewritten_eq_str d [t] hid2] at hpx
      exact ⟨hpx, rewritten_eq_str d [t] hid2⟩

/-- Rewriting for one label then for the rest composes to rewriting for the
whole label list. -/
theorem compose_rewritten (d : List Row) (t : Int) (L' : List Int) (r : Row) :
    rewritten (d.map (rewritten d [t])) L' (rewritten d [t] r)
      = rewritten d (t :: L') r := by
  cases hid : r.trip_id with
  | str s =>
    rw [rewritten_eq_str d [t] hid, rewritten_eq_str _ L' hid,
      rewritten_eq_str d (t :: L') hid]
  | num n =>
    by_cases hnt : n = t
    · subst hnt
      by_cases hfst : firstHolder d n = some r
      · have hgr : rewritten d [n] r = r := by
          rw [rewritten_eq_num d [n] hid, if_neg]
          intro hc
          exact hc.2 hfst
        rw [hgr, rewritten_eq_num _ L' hid, rewritten_eq_num d (n :: L') hid,
          if_neg (by
            intro hc
            exact hc.2 (firstHolder_map_eq d n r hfst)),
          if_neg (by
            intro hc
            exact hc.2 hfst)]
      · have hgr : rewritten d [n] r = { r with trip_id := newId n } := by
          rw [rewritten_eq_num d [n] hid, if_pos ⟨by simp, hfst⟩]
        rw [hgr, rewritten_eq_str (d.map (rewritten d [n])) L'
            (show ({ r with trip_id := newId n } : Row).trip_id
              = TId.str (toString (n + OFFSET)) from rfl),
          rewritten_eq_num d (n :: L') hid, if_pos ⟨by simp, hfst⟩]
    · have hgr : rewritten d [t] r = r := by
        rw [rewritten_eq_num d [t] hid, if_neg]
        intro hc
        exact hnt (by simpa using hc.1)
      rw [hgr, rewritten_eq_num _ L' hid, rewritten_eq_num d (t :: L') hid,
        firstHolder_map_ne d t n hnt]
      by_cases hL : n ∈ L' ∧ firstHolder d n ≠ some r
      · rw [if_pos hL, if_pos ⟨by simp [hL.1], hL.2⟩]
      · rw [if_neg hL, if_neg (by
          intro hc
          rcases List.mem_cons.mp hc.1 with h | h
          · exact hnt h
          · exact hL ⟨h, hc.2⟩)]

/-- Rewriting preserves the index column of the whole batch. -/
theorem map_idx_map_rewritten (d : List Row) (L : List Int) :
    ((d.map (rewritten d L)).map Row.idx) = d.map Row.idx := by
  rw [List.map_map]
  apply List.map_congr_left
  intro x _
  exact rewritten_idx d L x

/-- The whole reconciliation loop is one simultaneous rewrite. -/
theorem loop_eq_map : ∀ (L : List Int) (d : List Row),
    (d.map Row.idx).Nodup → reassignLoop L d = d.map (rewritten d L) := by
  intro L
  induction L with
  | nil =>
    intro d _
    show d = d.map (rewritten d [])
    have hpt : ∀ x ∈ d, rewritten d [] x = x := by
      intro x _
      rw [rewritten]
      cases x.trip_id with
      | num n => simp
      | str s => rfl
    rw [List.map_congr_left hpt, List.map_id']
  | cons t L' ih =>
    intro d hN
    show reassignLoop L' (processLabel t d) = d.map (rewritten d (t :: L'))
    rw [processLabel_eq t d hN]
    have hN' : ((d.map (rewritten d [t])).map Row.idx).Nodup := by
      rw [map_idx_map_rewritten]
      exact hN
    rw [ih _ hN', List.map_map]
    apply List.map_congr_left
    intro r _
    exact compose_rewritten d t L' r

/-- Unfolding `handle_duplicates` through `loop_eq_map`. -/
theorem handle_duplicates_eq (rows : List Row)
    (hN : (rows.map Row.idx).Nodup) :
    handle_duplicates rows
      = (drop_duplicates rows).map
          (rewritten (drop_duplicates rows)
            (duplicateTripIds (drop_duplicates rows))) := by
  have hNd : ((drop_duplicates rows).map Row.idx).Nodup :=
    ((dedupBy_sublist [] rows).map Row.idx).nodup hN
  exact loop_eq_map _ _ hNd


/-! ## Lemmas: idempotence ingredients -/

/-- Two rows whose trip ids differ have different duplicate keys. -/
theorem rowKey_ne_of_trip_id_ne {a b : Row} (h : a.trip_id ≠ b.trip_id) :
    rowKey a ≠ rowKey b := by
  intro hc
  exact h (congrArg Prod.fst hc)

/-- Two rows whose other columns differ have different duplicate keys. -/
theorem rowKey_ne_of_rest_ne {a b : Row} (h : a.rest ≠ b.rest) :
    rowKey a ≠ rowKey b := by
  intro hc
  exact h (congrArg Prod.snd hc)

/-- With all-numeric input ids and unique index labels, the keys of the
reconciled batch are pairwise distinct. -/
theorem out_keys_nodup (rows : List Row)
    (hAll : ∀ r ∈ rows, ∃ n, r.trip_id = TId.num n)
    (hN : (rows.map Row.idx).Nodup) :
    ((handle_duplicates rows).map rowKey).Nodup := by
  rw [handle_duplicates_eq rows hN, List.map_map]
  set d := drop_duplicates rows with hd
  set L := duplicateTripIds d with hL
  have hsub : List.Sublist d rows := dedupBy_sublist [] rows
  have hAlld : ∀ r ∈ d, ∃ n, r.trip_id = TId.num n :=
    fun r hr => hAll r (hsub.subset hr)
  have hkeys_d : (d.map rowKey).Nodup := (dedupBy_keys [] rows).1
  have hpair : d.Pairwise (fun a b => rowKey a ≠ rowKey b) :=
    List.pairwise_map.mp hkeys_d
  show List.Nodup (d.map (rowKey ∘ rewritten d L))
  rw [List.Nodup, List.pairwise_map]
  apply List.Pairwise.imp_of_mem ?_ hpair
  intro a b ha hb hne
  show rowKey (rewritten d L a) ≠ rowKey (rewritten d L b)
  rcases rewritten_cases d L a with hA | ⟨na, hida, hrwa, _, _⟩ <;>
    rcases rewritten_cases d L b with hB | ⟨nb, hidb, hrwb, _, _⟩
  · rw [hA, hB]
    exact hne
  · rw [hA, hrwb]
    obtain ⟨ma, hma⟩ := hAlld a ha
    apply rowKey_ne_of_trip_id_ne
    show a.trip_id ≠ newId nb
    rw [hma]
    exact fun hc => newId_ne_num nb ma hc.symm
  · rw [hrwa, hB]
    obtain ⟨mb, hmb⟩ := hAlld b hb
    apply rowKey_ne_of_trip_id_ne
    show newId na ≠ b.trip_id
    rw [hmb]
    exact newId_ne_num na mb
  · rw [hrwa, hrwb]
    by_cases hab : na = nb
    · subst hab
      apply rowKey_ne_of_rest_ne
      show a.rest ≠ b.rest
      intro hc
      apply hne
      have hid : a.trip_id = b.trip_id := by rw [hida, hidb]
      rw [rowKey, rowKey, hid, hc]
    · apply rowKey_ne_of_trip_id_ne
      show newId na ≠ newId nb
      exact fun hc => hab (newId_injective hc)

/-- With unique index labels, no integer id that is also an index label of the
reconciled batch occurs there twice. -/
theorem out_group_small (rows : List Row)
    (hN : (rows.map Row.idx).Nodup) :
    ∀ r ∈ handle_duplicates rows,
      groupSize (handle_duplicates rows) (TId.num r.idx) ≤ 1 := by
  have heq := handle_duplicates_eq rows hN
  set d := drop_duplicates rows with hd
  set L := duplicateTripIds d with hL
  set h := handle_duplicates rows with hh
  have hNd : (d.map Row.idx).Nodup :=
    ((dedupBy_sublist [] rows).map Row.idx).nodup hN
  have hdN : d.Nodup := List.Nodup.of_map _ hNd
  intro r hr
  by_contra hc
  push_neg at hc
  have h2 : 2 ≤ (h.filter fun x => x.trip_id == TId.num r.idx).length := hc
  obtain ⟨i, j, hi, hj, hij, hpi, hpj⟩ := filter_two_positions _ h h2
  have hlen : h.length = d.length := by rw [heq]; simp
  have hi' : i < d.length := by omega
  have hj' : j < d.length := by omega
  have hgeti : h.get ⟨i, hi⟩ = rewritten d L (d.get ⟨i, hi'⟩) := by
    rw [List.get_eq_getElem, List.get_eq_getElem]
    simp only [heq, List.getElem_map]
  have hgetj : h.get ⟨j, hj⟩ = rewritten d L (d.get ⟨j, hj'⟩) := by
    rw [List.get_eq_getElem, List.get_eq_getElem]
    simp only [heq, List.getElem_map]
  set u := r.idx with hu
  set x := d.get ⟨i, hi'⟩ with hx
  set y := d.get ⟨j, hj'⟩ with hy
  have hxid : (rewritten d L x).trip_id = TId.num u := by
    have hb : ((h.get ⟨i, hi⟩).trip_id == TId.num u) = true := hpi
    rw [hgeti] at hb
    exact eq_of_beq hb
  have hyid : (rewritten d L y).trip_id = TId.num u := by
    have hb : ((h.get ⟨j, hj⟩).trip_id == TId.num u) = true := hpj
    rw [hgetj] at hb
    exact eq_of_beq hb
  have hxkeep : rewritten d L x = x ∧ x.trip_id = TId.num u := by
    rcases rewritten_cases d L x with hk | ⟨n, _, hrw, _, _⟩
    · exact ⟨hk, by rw [← hk]; exact hxid⟩
    · exfalso
      rw [hrw] at hxid
      exact newId_ne_num n u hxid
  have hykeep : rewritten d L y = y ∧ y.trip_id = TId.num u := by
    rcases rewritten_cases d L y with hk | ⟨n, _, hrw, _, _⟩
    · exact ⟨hk, by rw [← hk]; exact hyid⟩
    · exfalso
      rw [hrw] at hyid
      exact newId_ne_num n u hyid
  obtain ⟨z, hz, hzr⟩ := List.mem_map.mp (by rw [heq] at hr; exact hr)
  have hzidx : z.idx = u := by
    have h3 := rewritten_idx d L z
    simp only [hzr] at h3
    exact h3.symm
  by_cases huL : u ∈ L
  · have hfixed : ∀ w, w.trip_id = TId.num u → rewritten d L w = w →
        firstHolder d u = some w := by
      intro w hw hkeep
      by_contra hne
      rw [rewritten_eq_num d L hw, if_pos ⟨huL, hne⟩] at hkeep
      have h4 : newId u = w.trip_id := congrArg Row.trip_id hkeep
      rw [hw] at h4
      exact newId_ne_num u u h4
    have hfx := hfixed x hxkeep.2 hxkeep.1
    have hfy := hfixed y hykeep.2 hykeep.1
    have hxy : x = y := Option.some.inj (hfx.symm.trans hfy)
    have hfin : (⟨i, hi'⟩ : Fin d.length) = ⟨j, hj'⟩ :=
      List.nodup_iff_injective_get.mp hdN hxy
    have : i = j := by
      simpa using congrArg Fin.val hfin
    omega
  · apply huL
    rw [hL, duplicateTripIds]
    have hgs2 : 2 ≤ groupSize d (TId.num u) := by
      apply two_le_filter_length _ d i j hi' hj' hij
      · show (x.trip_id == TId.num u) = true
        rw [hxkeep.2]
        exact beq_self_eq_true _
      · show (y.trip_id == TId.num u) = true
        rw [hykeep.2]
        exact beq_self_eq_true _
    apply List.mem_map.mpr
    refine ⟨z, ?_, hzidx⟩
    apply List.mem_filter.mpr
    refine ⟨hz, ?_⟩
    rw [countForRow, hzidx]
    rw [if_neg (by omega)]
    simp only []
    have hlt : 1 < groupSize d (TId.num u) := by omega
    simpa using hlt

/-- A second run of the count-alignment pass finds nothing to rewrite. -/
theorem out_dup_ids_nil (rows : List Row)
    (hN : (rows.map Row.idx).Nodup) :
    duplicateTripIds (handle_duplicates rows) = [] := by
  rw [duplicateTripIds, List.map_eq_nil_iff, List.filter_eq_nil_iff]
  intro r hr
  have hsmall := out_group_small rows hN r hr
  cases hcr : countForRow (handle_duplicates rows) r with
  | none => simp
  | some c =>
    rw [countForRow] at hcr
    by_cases h0 : groupSize (handle_duplicates rows) (TId.num r.idx) = 0
    · rw [if_pos h0] at hcr
      exact absurd hcr (by simp)
    · rw [if_neg h0] at hcr
      have hcg : c = groupSize (handle_duplicates rows) (TId.num r.idx) :=
        (Option.some.inj hcr).symm
      simp only []
      simp
      omega

/-! ## Lemmas: LabelIntervalAssigner -/

/-- The interval loop acts on each point independently. -/
theorem foldl_applyOne (l : List LabelRow) (pts : List LPoint) :
    l.foldl (fun acc iv => applyOneLabel iv acc) pts
      = pts.map (fun p =>
          ⟨p.time, l.foldl (fun a iv =>
            if iv.start_time ≤ p.time ∧ p.time ≤ iv.end_time then iv.label else a)
            p.label⟩) := by
  induction l generalizing pts with
  | nil => simp
  | cons iv l ih =>
    simp only [List.foldl_cons]
    rw [ih]
    simp only [applyOneLabel, List.map_map]
    apply List.map_congr_left
    intro p _
    by_cases h : iv.start_time ≤ p.time ∧ p.time ≤ iv.end_time
    · simp [h]
    · simp [h]

/-- Per point, the overwrite fold computes the last matching interval. -/
theorem pointFold_eq_lastMatch (l : List LabelRow) (t : Int) (a : Nat) :
    l.foldl (fun a iv =>
        if iv.start_time ≤ t ∧ t ≤ iv.end_time then iv.label else a) a
      = (match (l.filter fun iv =>
            decide (iv.start_time ≤ t) && decide (t ≤ iv.end_time)).getLast? with
        | some iv => iv.label
        | none => a) := by
  induction l generalizing a with
  | nil => simp
  | cons iv l ih =>
    simp only [List.foldl_cons, List.filter_cons]
    by_cases h : iv.start_time ≤ t ∧ t ≤ iv.end_time
    · have hb : (decide (iv.start_time ≤ t) && decide (t ≤ iv.end_time)) = true := by
        simp [h.1, h.2]
      rw [if_pos h, hb, ih]
      cases hl : (l.filter fun iv =>
          decide (iv.start_time ≤ t) && decide (t ≤ iv.end_time)).getLast? with
      | none =>
        have hnil : (l.filter fun iv =>
            decide (iv.start_time ≤ t) && decide (t ≤ iv.end_time)) = [] := by
          simpa [List.getLast?_eq_none_iff] using hl
        simp [hnil]
      | some x =>
        simp [List.getLast?_cons, hl]
    · have hb : (decide (iv.start_time ≤ t) && decide (t ≤ iv.end_time)) = false := by
        rcases not_and_or.mp h with h' | h' <;> simp [h']
      rw [if_neg h, hb, ih]
      simp

/-! ## Lemmas: TrajectoryAssembler -/

/-- Flattening preserves the number of samples. -/
theorem samplesFrom_length (start : Int) :
    ∀ (j : Nat) (ps : List (ℚ × ℚ)), (samplesFrom start j ps).length = ps.length := by
  intro j ps
  induction ps generalizing j with
  | nil => rfl
  | cons p ps ih => simp [samplesFrom, ih]

/-- Sample times follow the enumeration. -/
theorem samplesFrom_get (start : Int) :
    ∀ (ps : List (ℚ × ℚ)) (j i : Nat) (h : i < (samplesFrom start j ps).length),
      ((samplesFrom start j ps).get ⟨i, h⟩).time = start + 15 * ((j : Int) + i) := by
  intro ps
  induction ps with
  | nil => intro j i h; simp [samplesFrom] at h
  | cons p ps ih =>
    intro j i h
    cases i with
    | zero => simp [samplesFrom]
    | succ i =>
      have h' : i < (samplesFrom start (j + 1) ps).length := by
        simpa [samplesFrom] using h
      have := ih (j + 1) i h'
      simp only [samplesFrom, List.get_cons_succ]
      rw [this]
      push_cast
      ring

/-- Sample `i` of a trip is timestamped `start + 15 * i`. -/
theorem tripSamples_time (t : Trip) (i : Nat) (h : i < (tripSamples t).length) :
    ((tripSamples t).get ⟨i, h⟩).time = t.start + 15 * (i : Int) := by
  have := samplesFrom_get t.start t.polyline 0 i h
  simpa [tripSamples] using this

/-- The stable insertion sort satisfies the sort contract. -/
theorem sortspec_stable : SortSpec stableSortTime := by
  intro l
  exact ⟨List.perm_insertionSort sampleLE l, List.sorted_insertionSort sampleLE l⟩

/-- The reverse-then-sort function also satisfies the contract, while breaking
ties in reversed input order. -/
theorem sortspec_bad : SortSpec badSort := by
  intro l
  constructor
  · exact (List.perm_insertionSort sampleLE l.reverse).trans (List.reverse_perm l)
  · exact List.sorted_insertionSort sampleLE l.reverse


/-! ## Claims -/

/-- C1 (code bug).  Identity-collision reconciliation never happens on
realistic input: in the §8 scenario — two records sharing trip id 100 with
different payloads and the index labels 0 and 1 a CSV read produces —
`handle_duplicates` returns the batch unchanged, so the second occurrence
keeps the colliding id and the output ids are not unique.  The cause is the
count alignment: `df.groupby("TRIP_ID").size()` is indexed by trip-id values,
which never match the row labels, so every TRIP_ID_count is NaN and the
rewrite loop is dead code — contradicting the function's own docstring
("give them unique IDs"). -/
theorem claim1_collision_not_reconciled :
    handle_duplicates W1 = W1 ∧
    ¬ ((handle_duplicates W1).map Row.trip_id).Nodup := by
  constructor
  · decide
  · decide

/-- C2 (counterexample).  The claimed fixed priority puts malformed (parse
failure) first: whether a polyline is a parse failure does not depend on the
configuration, so under the claim one and the same polyline can never switch
between `malformed` and a count-based reason as min/max change.  The code
does exactly that for a flat numeric list (a JSON list `np.array` converts to
a 1-dimensional array, which is not a list of coordinate pairs): with twenty
numbers it reports `malformed` under max 480 but `too_long` under max 15, and
with two numbers it reports `too_short` with point_count 2 under min 8.  The
claimed equivalence also fails on its own: the empty polyline parses, has
count 0 within [0, 5], and vacuously passes the bounds check, yet is
classified invalid with reason `empty`. -/
theorem claim2_counterexample :
    (validate_single_polyline bbox0 (.arr1 20) 8 480).reason = .malformed ∧
    (validate_single_polyline bbox0 (.arr1 20) 8 15).reason = .too_long ∧
    (validate_single_polyline bbox0 (.arr1 2) 8 480).reason = .too_short ∧
    (validate_single_polyline bbox0 (.arr1 2) 8 480).point_count = some 2 ∧
    (validate_single_polyline bbox0 .falsy 0 5).valid = false ∧
    (validate_single_polyline bbox0 .falsy 0 5).point_count = some 0 := by
  refine ⟨?_, ?_, ?_, ?_, ?_, ?_⟩ <;> decide

/-- C2 (amended).  For every bounding box, configuration and input, the
result is valid exactly when the cell converts to an array whose first-axis
length lies in [min, max], which has at least two columns, and whose
column-0 and column-1 values all lie within the box; and the reported
reason is the first match of the rule list the code implements: empty
(null or falsy parse), malformed detected before a count exists (parse or
conversion failure, 0-dimensional array), too_short, too_long, malformed
detected at column extraction (1-dimensional array or fewer than two
columns), out_of_bounds, valid.  Malformedness of the second kind ranks
below the count checks, unlike the spec's §4.2 order. -/
theorem claim2_amended (bounds : BBox) (pstr : PolyInput) (minp maxp : Nat) :
    (validate_single_polyline bounds pstr minp maxp).reason
      = specReasonAmended bounds minp maxp pstr ∧
    ((validate_single_polyline bounds pstr minp maxp).valid = true ↔
      ∃ n, arrCount pstr = some n ∧ minp ≤ n ∧ n ≤ maxp ∧
        hasTwoCols pstr = true ∧ colsInBounds bounds pstr = true) := by
  cases pstr with
  | nan =>
    simp [validate_single_polyline, specReasonAmended, isNullOrEmpty, arrCount]
  | falsy =>
    simp [validate_single_polyline, specReasonAmended, isNullOrEmpty, arrCount]
  | unparsable =>
    simp [validate_single_polyline, specReasonAmended, isNullOrEmpty,
      earlyMalformed, arrCount]
  | badArray =>
    simp [validate_single_polyline, specReasonAmended, isNullOrEmpty,
      earlyMalformed, arrCount]
  | scalarArr =>
    simp [validate_single_polyline, specReasonAmended, isNullOrEmpty,
      earlyMalformed, arrCount]
  | arr1 n =>
    simp only [validate_single_polyline, specReasonAmended, isNullOrEmpty,
      earlyMalformed, lateMalformed, arrCount, hasTwoCols, colsInBounds]
    by_cases hs : n < minp
    · simp [hs]
    · by_cases hl : maxp < n
      · simp [hs, hl]
      · simp [hs, hl]
  | arr2 k rows =>
    simp only [validate_single_polyline, specReasonAmended, isNullOrEmpty,
      earlyMalformed, lateMalformed, arrCount, hasTwoCols, colsInBounds]
    by_cases hs : rows.length < minp
    · simp [hs]
    · by_cases hl : maxp < rows.length
      · simp [hs, hl]
      · by_cases hk : k < 2
        · simp [hs, hl, hk]
        · by_cases hb : rows.all (fun row => rowInBounds bounds row.val)
          · simp [hs, hl, hk, hb]
            exact ⟨by omega, by omega, by omega⟩
          · simp [hs, hl, hk, hb]
  | arrHi k rows =>
    simp only [validate_single_polyline, specReasonAmended, isNullOrEmpty,
      earlyMalformed, lateMalformed, arrCount, hasTwoCols, colsInBounds]
    by_cases hs : rows.length < minp
    · simp [hs]
    · by_cases hl : maxp < rows.length
      · simp [hs, hl]
      · by_cases hk : k < 2
        · simp [hs, hl, hk]
        · by_cases hb : rows.all (fun row => slabInBounds bounds row.val)
          · simp [hs, hl, hk, hb]
            exact ⟨by omega, by omega, by omega⟩
          · simp [hs, hl, hk, hb]

/-- C2 (witness).  The amended statement at a concrete input (the flat
two-number list) and configuration. -/
theorem claim2_witness :
    (validate_single_polyline bbox0 (.arr1 2) 8 480).reason
      = specReasonAmended bbox0 8 480 (.arr1 2) ∧
    ((validate_single_polyline bbox0 (.arr1 2) 8 480).valid = true ↔
      ∃ n, arrCount (.arr1 2) = some n ∧ 8 ≤ n ∧ n ≤ 480 ∧
        hasTwoCols (.arr1 2) = true ∧ colsInBounds bbox0 (.arr1 2) = true) :=
  claim2_amended bbox0 (.arr1 2) 8 480

/-- C3 (confirmed).  The interval join assigns every sample the mode of the
last interval, in the intervals' original input order, whose closed
[start_time, end_time] range contains the sample's timestamp, and 0
(`unknown`) when no interval matches; with no label table every sample is
`unknown`.  In particular a taxi with zero intervals yields all-unknown, and
boundary timestamps are included on both ends (the containment test is
`start_time ≤ t ∧ t ≤ end_time`). -/
theorem claim3_last_match_wins (l : List LabelRow) (pts : List LPoint) :
    apply_labels (some l) pts
      = pts.map (fun p => ⟨p.time, lastMatchLabel l p.time⟩) ∧
    apply_labels none pts = pts.map (fun p => ⟨p.time, 0⟩) := by
  refine ⟨?_, rfl⟩
  by_cases hl : l.isEmpty
  · have hnil : l = [] := by simpa [List.isEmpty_iff] using hl
    subst hnil
    simp [apply_labels, lastMatchLabel]
  · show (if l.isEmpty then _ else _) = _
    rw [if_neg hl, foldl_applyOne, List.map_map]
    apply List.map_congr_left
    intro p _
    simp only [Function.comp]
    rw [pointFold_eq_lastMatch]
    rfl

/-- C4 (counterexample).  The claimed stable tie-break is not guaranteed by
the code: `sort_values('time')` defaults to an unstable quicksort, and a
correct-but-unstable sort satisfying that contract reorders the two
equal-timestamp samples of `trips0`, disagreeing with the stable sort that
keeps original trip order. -/
theorem claim4_counterexample :
    SortSpec badSort ∧
    read_taxi badSort trips0 ≠ stableSortTime (concatTrips trips0) := by
  refine ⟨sortspec_bad, ?_⟩
  decide

/-- C4 (amended).  For every sort implementation meeting the pandas
`sort_values` contract, the assembled per-taxi stream is non-decreasing by
timestamp and is a permutation of the concatenation of the taxi's trips,
where sample `i` of a trip is timestamped `start + i * 15`; the order among
equal timestamps is unspecified (the default quicksort gives no stability
guarantee). -/
theorem claim4_amended (f : List TSample → List TSample) (hf : SortSpec f)
    (trips : List Trip) :
    (read_taxi f trips).Sorted sampleLE ∧
    List.Perm (read_taxi f trips) (concatTrips trips) ∧
    ∀ t ∈ trips, ∀ i (h : i < (tripSamples t).length),
      ((tripSamples t).get ⟨i, h⟩).time = t.start + 15 * (i : Int) := by
  refine ⟨(hf (concatTrips trips)).2, (hf (concatTrips trips)).1, ?_⟩
  intro t _ i h
  exact tripSamples_time t i h

/-- C4 (witness).  The amended statement for the stable insertion sort, which
satisfies the contract, on the concrete trips. -/
theorem claim4_witness :
    SortSpec stableSortTime ∧
    ((read_taxi stableSortTime trips0).Sorted sampleLE ∧
     List.Perm (read_taxi stableSortTime trips0) (concatTrips trips0) ∧
     ∀ t ∈ trips0, ∀ i (h : i < (tripSamples t).length),
       ((tripSamples t).get ⟨i, h⟩).time = t.start + 15 * (i : Int)) :=
  ⟨sortspec_stable, claim4_amended stableSortTime sortspec_stable trips0⟩

/-- C5 (counterexample).  Deduplication is not idempotent on every batch the
spec's interface admits (trip ids may be strings, §6): if the input already
contains the string id the rewrite fabricates, the first run creates an exact
duplicate key and the second run's drop_duplicates removes that row. -/
theorem claim5_counterexample :
    handle_duplicates (handle_duplicates W5) ≠ handle_duplicates W5 := by decide

/-- C5 (amended).  Deduplication is idempotent for every batch whose trip ids
are all numeric and whose index labels are pairwise distinct — exactly what
the CSV read hands the code.  (With string ids, or with repeated index
labels, a second application can drop rows.) -/
theorem claim5_amended (rows : List Row)
    (hAll : ∀ r ∈ rows, ∃ n, r.trip_id = TId.num n)
    (hN : (rows.map Row.idx).Nodup) :
    handle_duplicates (handle_duplicates rows) = handle_duplicates rows := by
  have hdrop : drop_duplicates (handle_duplicates rows) = handle_duplicates rows := by
    apply dedupBy_eq_self
    · exact out_keys_nodup rows hAll hN
    · intro k _
      simp
  show reassignLoop
      (duplicateTripIds (drop_duplicates (handle_duplicates rows)))
      (drop_duplicates (handle_duplicates rows))
    = handle_duplicates rows
  rw [hdrop, out_dup_ids_nil rows hN]
  rfl

/-- C5 (witness).  The amended statement at the concrete numeric batch. -/
theorem claim5_witness :
    ((∀ r ∈ W1, ∃ n, r.trip_id = TId.num n) ∧ (W1.map Row.idx).Nodup) ∧
    handle_duplicates (handle_duplicates W1) = handle_duplicates W1 := by
  have hAll : ∀ r ∈ W1, ∃ n, r.trip_id = TId.num n := by
    intro r hr
    fin_cases hr
    · exact ⟨100, rfl⟩
    · exact ⟨100, rfl⟩
  exact ⟨⟨hAll, by decide⟩, claim5_amended W1 hAll (by decide)⟩

/-- C6 (code bug).  When the rewrite loop does run (here the index label 5
matches the colliding trip id 5), all later occurrences of the group receive
the same fabricated id, so the operation silently returns a batch with a new
collision ("10000000000005" twice) instead of failing: no
IdentitySpaceExhausted error — or any error — exists anywhere in the code
path, contradicting the spec's failure-mode requirement and the docstring's
uniqueness promise. -/
theorem claim6_silent_new_collision :
    handle_duplicates W6 =
      [⟨5, .num 5, [1], []⟩,
       ⟨6, .str "10000000000005", [2], []⟩,
       ⟨7, .str "10000000000005", [3], []⟩] ∧
    ¬ ((handle_duplicates W6).map Row.trip_id).Nodup := by
  constructor
  · decide
  · decide

/-- C7 (code bug).  The bounding-box calculation performs no radius
validation: at radius −1 it silently returns a box computed by the same
formula — with min above max on both axes — instead of failing with an
InvalidArgument error (the embedded function is total; the source has no
check, raise, or error path). -/
theorem claim7_no_radius_validation :
    calculate_bounding_box_coord portoLon portoLat (753099/1000000) (-1)
      = { min_lon := portoLon + 1 / (lat_distance_const * (753099/1000000))
          max_lon := portoLon - 1 / (lat_distance_const * (753099/1000000))
          min_lat := portoLat + 1 / lat_distance_const
          max_lat := portoLat - 1 / lat_distance_const } ∧
    (calculate_bounding_box_coord portoLon portoLat (753099/1000000) (-1)).max_lat
      < (calculate_bounding_box_coord portoLon portoLat (753099/1000000) (-1)).min_lat ∧
    (calculate_bounding_box_coord portoLon portoLat (753099/1000000) (-1)).max_lon
      < (calculate_bounding_box_coord portoLon portoLat (753099/1000000) (-1)).min_lon := by
  refine ⟨?_, ?_, ?_⟩ <;>
    simp [calculate_bounding_box_coord, portoLat, portoLon, lat_distance_const] <;>
    norm_num

/-- C8 (confirmed).  For every center, every positive cosine of its latitude
(i.e. every valid non-polar center) and every radius r > 0, the computed box
contains the center, is symmetric around it in degree space, and for radii
r1 < r2 the r2 box strictly contains the r1 box on every side. -/
theorem claim8_bbox_geometry (lon lat cosLat r r1 r2 : ℚ) (hc : 0 < cosLat)
    (hr : 0 < r) (h1 : 0 < r1) (h12 : r1 < r2) :
    ((calculate_bounding_box_coord lon lat cosLat r).min_lon ≤ lon ∧
     lon ≤ (calculate_bounding_box_coord lon lat cosLat r).max_lon ∧
     (calculate_bounding_box_coord lon lat cosLat r).min_lat ≤ lat ∧
     lat ≤ (calculate_bounding_box_coord lon lat cosLat r).max_lat) ∧
    (lon - (calculate_bounding_box_coord lon lat cosLat r).min_lon
       = (calculate_bounding_box_coord lon lat cosLat r).max_lon - lon ∧
     lat - (calculate_bounding_box_coord lon lat cosLat r).min_lat
       = (calculate_bounding_box_coord lon lat cosLat r).max_lat - lat) ∧
    ((calculate_bounding_box_coord lon lat cosLat r2).min_lon
       < (calculate_bounding_box_coord lon lat cosLat r1).min_lon ∧
     (calculate_bounding_box_coord lon lat cosLat r1).max_lon
       < (calculate_bounding_box_coord lon lat cosLat r2).max_lon ∧
     (calculate_bounding_box_coord lon lat cosLat r2).min_lat
       < (calculate_bounding_box_coord lon lat cosLat r1).min_lat ∧
     (calculate_bounding_box_coord lon lat cosLat r1).max_lat
       < (calculate_bounding_box_coord lon lat cosLat r2).max_lat) := by
  have hd : (0:ℚ) < lat_distance_const := by norm_num [lat_distance_const]
  have hdc : (0:ℚ) < lat_distance_const * cosLat := mul_pos hd hc
  have hlatr : 0 < r / lat_distance_const := div_pos hr hd
  have hlonr : 0 < r / (lat_distance_const * cosLat) := div_pos hr hdc
  have hm1 : r1 / lat_distance_const < r2 / lat_distance_const := by gcongr
  have hm2 : r1 / (lat_distance_const * cosLat)
      < r2 / (lat_distance_const * cosLat) := by gcongr
  simp only [calculate_bounding_box_coord]
  refine ⟨⟨by linarith, by linarith, by linarith, by linarith⟩,
    ⟨by ring, by ring⟩,
    ⟨by linarith, by linarith, by linarith, by linarith⟩⟩

/-- C8 (witness).  The hypotheses hold at the Porto configuration (cosine of
the Porto latitude is about 0.7531), and the conclusion's first conjunct is
the instance given by the theorem. -/
theorem claim8_witness :
    ((0:ℚ) < 753099/1000000 ∧ (0:ℚ) < 30 ∧ (0:ℚ) < 10 ∧ (10:ℚ) < 20) ∧
    (calculate_bounding_box_coord portoLon portoLat (753099/1000000) 30).min_lon
      ≤ portoLon := by
  refine ⟨⟨by norm_num, by norm_num, by norm_num, by norm_num⟩, ?_⟩
  exact (claim8_bbox_geometry portoLon portoLat (753099/1000000) 30 10 20
    (by norm_num) (by norm_num) (by norm_num) (by norm_num)).1.1

/-- C9 (confirmed).  For every input and configuration the validation result
satisfies valid iff reason is `valid`; reason `empty` reports point_count 0;
reason `malformed` reports no point_count; and the reason is one of the six
enumerated values. -/
theorem claim9_validation_result_invariant (bounds : BBox) (pstr : PolyInput)
    (minp maxp : Nat) :
    ((validate_single_polyline bounds pstr minp maxp).valid = true ↔
      (validate_single_polyline bounds pstr minp maxp).reason = .valid) ∧
    ((validate_single_polyline bounds pstr minp maxp).reason = .empty →
      (validate_single_polyline bounds pstr minp maxp).point_count = some 0) ∧
    ((validate_single_polyline bounds pstr minp maxp).reason = .malformed →
      (validate_single_polyline bounds pstr minp maxp).point_count = none) ∧
    ((validate_single_polyline bounds pstr minp maxp).reason = .valid ∨
     (validate_single_polyline bounds pstr minp maxp).reason = .empty ∨
     (validate_single_polyline bounds pstr minp maxp).reason = .malformed ∨
     (validate_single_polyline bounds pstr minp maxp).reason = .too_short ∨
     (validate_single_polyline bounds pstr minp maxp).reason = .too_long ∨
     (validate_single_polyline bounds pstr minp maxp).reason = .out_of_bounds) := by
  cases pstr with
  | nan => simp [validate_single_polyline]
  | falsy => simp [validate_single_polyline]
  | unparsable => simp [validate_single_polyline]
  | badArray => simp [validate_single_polyline]
  | scalarArr => simp [validate_single_polyline]
  | arr1 n =>
    simp only [validate_single_polyline]
    split_ifs <;> simp
  | arr2 k rows =>
    simp only [validate_single_polyline]
    split_ifs <;> simp
  | arrHi k rows =>
    simp only [validate_single_polyline]
    split_ifs <;> simp

/-- C9 (witness).  The invariant at a concrete input. -/
theorem claim9_witness :
    ((validate_single_polyline bbox0 .falsy 8 480).valid = true ↔
      (validate_single_polyline bbox0 .falsy 8 480).reason = .valid) ∧
    ((validate_single_polyline bbox0 .falsy 8 480).reason = .empty →
      (validate_single_polyline bbox0 .falsy 8 480).point_count = some 0) ∧
    ((validate_single_polyline bbox0 .falsy 8 480).reason = .malformed →
      (validate_single_polyline bbox0 .falsy 8 480).point_count = none) ∧
    ((validate_single_polyline bbox0 .falsy 8 480).reason = .valid ∨
     (validate_single_polyline bbox0 .falsy 8 480).reason = .empty ∨
     (validate_single_polyline bbox0 .falsy 8 480).reason = .malformed ∨
     (validate_single_polyline bbox0 .falsy 8 480).reason = .too_short ∨
     (validate_single_polyline bbox0 .falsy 8 480).reason = .too_long ∨
     (validate_single_polyline bbox0 .falsy 8 480).reason = .out_of_bounds) :=
  claim9_validation_result_invariant bbox0 .falsy 8 480

/-- C10 (confirmed).  For a batch with unique index labels, the reconciled
output is the deduplicated batch row for row: index, other columns and
payload unchanged; every trip id is either kept with its original value and
numeric type, or replaced by the decimal string rendering of the original
numeric id plus 10000000000000; the first occurrence of each trip id keeps
its id, and so does every non-colliding row. -/
theorem claim10_rewrite_shape (rows : List Row)
    (hN : (rows.map Row.idx).Nodup) :
    (handle_duplicates rows).length = (drop_duplicates rows).length ∧
    ∀ (i : Nat) (hi : i < (drop_duplicates rows).length)
      (hi' : i < (handle_duplicates rows).length),
      ((handle_duplicates rows).get ⟨i, hi'⟩).idx
          = ((drop_duplicates rows).get ⟨i, hi⟩).idx ∧
      ((handle_duplicates rows).get ⟨i, hi'⟩).rest
          = ((drop_duplicates rows).get ⟨i, hi⟩).rest ∧
      ((handle_duplicates rows).get ⟨i, hi'⟩).poly
          = ((drop_duplicates rows).get ⟨i, hi⟩).poly ∧
      (((handle_duplicates rows).get ⟨i, hi'⟩).trip_id
          = ((drop_duplicates rows).get ⟨i, hi⟩).trip_id ∨
        ∃ n : Int, ((drop_duplicates rows).get ⟨i, hi⟩).trip_id = TId.num n ∧
          ((handle_duplicates rows).get ⟨i, hi'⟩).trip_id
            = TId.str (toString (n + 10000000000000))) ∧
      ((∀ (j : Nat) (hj : j < i),
          ((drop_duplicates rows).get ⟨j, lt_trans hj hi⟩).trip_id
            ≠ ((drop_duplicates rows).get ⟨i, hi⟩).trip_id) →
        ((handle_duplicates rows).get ⟨i, hi'⟩).trip_id
          = ((drop_duplicates rows).get ⟨i, hi⟩).trip_id) ∧
      (groupSize (drop_duplicates rows)
          ((drop_duplicates rows).get ⟨i, hi⟩).trip_id ≤ 1 →
        ((handle_duplicates rows).get ⟨i, hi'⟩).trip_id
          = ((drop_duplicates rows).get ⟨i, hi⟩).trip_id) := by
  have heq := handle_duplicates_eq rows hN
  constructor
  · rw [heq]
    simp
  intro i hi hi'
  have hget : (handle_duplicates rows).get ⟨i, hi'⟩
      = rewritten (drop_duplicates rows) (duplicateTripIds (drop_duplicates rows))
          ((drop_duplicates rows).get ⟨i, hi⟩) := by
    rw [List.get_eq_getElem, List.get_eq_getElem]
    simp only [heq, List.getElem_map]
  set d := drop_duplicates rows with hd
  set L := duplicateTripIds d with hL
  set r := d.get ⟨i, hi⟩ with hr
  rw [hget]
  refine ⟨rewritten_idx d L r, rewritten_rest d L r, rewritten_poly d L r, ?_, ?_, ?_⟩
  · rcases rewritten_cases d L r with h | ⟨n, hn, hrw, _, _⟩
    · exact Or.inl (by rw [h])
    · refine Or.inr ⟨n, hn, ?_⟩
      rw [hrw]
      rfl
  · intro hfirst
    cases hid : r.trip_id with
    | str s => rw [rewritten_eq_str d L hid, hid]
    | num n =>
      have hfst : firstHolder d n = some r := by
        apply find?_eq_get_first (holdsLabel n) d i hi
        · exact (holdsLabel_iff n r).mpr hid
        · intro j hj
          by_cases hcj : holdsLabel n (d.get ⟨j, lt_trans hj hi⟩) = true
          · exfalso
            have hcj2 := (holdsLabel_iff n _).mp hcj
            exact hfirst j hj (by rw [hcj2, ← hid])
          · simpa using hcj
      rw [rewritten_eq_num d L hid, if_neg (fun hc => hc.2 hfst), hid]
  · intro hgs
    cases hid : r.trip_id with
    | str s => rw [rewritten_eq_str d L hid, hid]
    | num n =>
      have hfst : firstHolder d n = some r := by
        apply find?_eq_get_first (holdsLabel n) d i hi
        · exact (holdsLabel_iff n r).mpr hid
        · intro j hj
          by_cases hcj : holdsLabel n (d.get ⟨j, lt_trans hj hi⟩) = true
          · exfalso
            have h2 : 2 ≤ (d.filter fun x => x.trip_id == r.trip_id).length := by
              apply two_le_filter_length _ d j i (lt_trans hj hi) hi hj
              · have hjid := (holdsLabel_iff n _).mp hcj
                show ((d.get ⟨j, lt_trans hj hi⟩).trip_id == r.trip_id) = true
                rw [hjid, hid]
                exact beq_self_eq_true _
              · show ((d.get ⟨i, hi⟩).trip_id == r.trip_id) = true
                exact beq_self_eq_true _
            have hgs2 : (d.filter fun x => x.trip_id == r.trip_id).length ≤ 1 := hgs
            omega
          · simpa using hcj
      rw [rewritten_eq_num d L hid, if_neg (fun hc => hc.2 hfst), hid]

/-- C10 (witness).  The hypothesis holds at the concrete batch, and the
instance's length conjunct is given by the theorem. -/
theorem claim10_witness :
    (W6.map Row.idx).Nodup ∧
    (handle_duplicates W6).length = (drop_duplicates W6).length := by
  refine ⟨by decide, ?_⟩
  exact (claim10_rewrite_shape W6 (by decide)).1

end TaxiSpec
